import Mathlib

/-!
Verification of the E91 QKD protocol implementation (`assignment-3.py`):
one-time-pad encryption/decryption, CHSH correlation analysis, key sifting
and QBER estimation, shallowly embedded in Lean 4.

Bytes and bits are modelled as `Nat`, strings as Lean `String`
(sequences of valid Unicode scalar values), run logs as the four parallel
lists the Python code keeps in its `results` dictionary, and floating-point
averages as exact rationals `ℚ`.
-/

namespace E91

/-- The conversion of one 8-bit slice to a byte inside `bits_to_bytes`
(assignment-3.py, line 33-34): the slice is read as a big-endian binary
numeral, `int(''.join(str(b) for b in bits[i:i+8]), 2)`.  For bit values 0/1
that numeral is the fold `acc * 2 + b`. -/
def byteFold (bs : List Nat) : Nat :=
  bs.foldl (fun acc b => acc * 2 + b) 0

/-- Embeds `bits_to_bytes(bits)` (assignment-3.py, lines 28-35):
`n = len(bits) - (len(bits) % 8)`, then for `i in range(0, n, 8)` the 8-bit
slice `bits[i:i+8]` is packed into one byte via `byteFold`. -/
def bits_to_bytes (bits : List Nat) : List Nat :=
  let n := bits.length - bits.length % 8
  (List.range (n / 8)).map fun j => byteFold ((bits.drop (8 * j)).take 8)

/-- Embeds `xor_bytes(data, pad)` (lines 37-39): elementwise XOR of two byte
sequences; Python's `zip` truncates to the shorter sequence. -/
def xor_bytes (data pad : List Nat) : List Nat :=
  (data.zip pad).map fun ab => ab.1 ^^^ ab.2

/-- UTF-8 encoding of one Unicode scalar value, as performed by Python's
`str.encode('utf-8')` (and every conforming encoder): 1 byte below U+0080,
2 bytes below U+0800, 3 bytes below U+10000, 4 bytes otherwise, big-endian
payload split into 6-bit continuation groups. -/
def utf8EncodeChar (v : Nat) : List Nat :=
  if v < 0x80 then [v]
  else if v < 0x800 then [0xC0 + v / 64, 0x80 + v % 64]
  else if v < 0x10000 then
    [0xE0 + v / 4096, 0x80 + v / 64 % 64, 0x80 + v % 64]
  else
    [0xF0 + v / 262144, 0x80 + v / 4096 % 64, 0x80 + v / 64 % 64, 0x80 + v % 64]

/-- Embeds `message.encode('utf-8')` (line 43): the concatenated UTF-8
encodings of the message's characters. -/
def utf8Encode (message : String) : List Nat :=
  (message.data.map fun c => utf8EncodeChar c.toNat).flatten

/-- UTF-8 decoding with `errors='replace'`, as performed by
`bytes.decode('utf-8', errors='replace')` (line 55).  Returns the decoded
code points together with a flag recording whether any malformed sequence was
met; every malformed maximal subpart is replaced by U+FFFD (CPython follows
the Unicode "maximal subpart" recommendation).  Continuation-byte ranges per
lead byte follow RFC 3629 (E0/ED and F0/F4 restrictions excluded overlong
forms and surrogates). -/
def utf8DecodeReplaceA : List Nat → List Nat × Bool
  | [] => ([], false)
  | b0 :: rest =>
    if b0 < 0x80 then
      let r := utf8DecodeReplaceA rest
      (b0 :: r.1, r.2)
    else if 0xC2 ≤ b0 ∧ b0 ≤ 0xDF then
      match rest with
      | b1 :: rest1 =>
        if 0x80 ≤ b1 ∧ b1 ≤ 0xBF then
          let r := utf8DecodeReplaceA rest1
          (((b0 - 0xC0) * 64 + (b1 - 0x80)) :: r.1, r.2)
        else
          let r := utf8DecodeReplaceA (b1 :: rest1)
          (0xFFFD :: r.1, true)
      | [] => ([0xFFFD], true)
    else if 0xE0 ≤ b0 ∧ b0 ≤ 0xEF then
      match rest with
      | b1 :: rest1 =>
        if (0x80 ≤ b1 ∧ b1 ≤ 0xBF) ∧ (b0 = 0xE0 → 0xA0 ≤ b1) ∧ (b0 = 0xED → b1 ≤ 0x9F) then
          match rest1 with
          | b2 :: rest2 =>
            if 0x80 ≤ b2 ∧ b2 ≤ 0xBF then
              let r := utf8DecodeReplaceA rest2
              (((b0 - 0xE0) * 4096 + (b1 - 0x80) * 64 + (b2 - 0x80)) :: r.1, r.2)
            else
              let r := utf8DecodeReplaceA (b2 :: rest2)
              (0xFFFD :: r.1, true)
          | [] => ([0xFFFD], true)
        else
          let r := utf8DecodeReplaceA (b1 :: rest1)
          (0xFFFD :: r.1, true)
      | [] => ([0xFFFD], true)
    else if 0xF0 ≤ b0 ∧ b0 ≤ 0xF4 then
      match rest with
      | b1 :: rest1 =>
        if (0x80 ≤ b1 ∧ b1 ≤ 0xBF) ∧ (b0 = 0xF0 → 0x90 ≤ b1) ∧ (b0 = 0xF4 → b1 ≤ 0x8F) then
          match rest1 with
          | b2 :: rest2 =>
            if 0x80 ≤ b2 ∧ b2 ≤ 0xBF then
              match rest2 with
              | b3 :: rest3 =>
                if 0x80 ≤ b3 ∧ b3 ≤ 0xBF then
                  let r := utf8DecodeReplaceA rest3
                  (((b0 - 0xF0) * 262144 + (b1 - 0x80) * 4096 +
                      (b2 - 0x80) * 64 + (b3 - 0x80)) :: r.1, r.2)
                else
                  let r := utf8DecodeReplaceA (b3 :: rest3)
                  (0xFFFD :: r.1, true)
              | [] => ([0xFFFD], true)
            else
              let r := utf8DecodeReplaceA (b2 :: rest2)
              (0xFFFD :: r.1, true)
          | [] => ([0xFFFD], true)
        else
          let r := utf8DecodeReplaceA (b1 :: rest1)
          (0xFFFD :: r.1, true)
      | [] => ([0xFFFD], true)
    else
      let r := utf8DecodeReplaceA rest
      (0xFFFD :: r.1, true)
  termination_by l => l.length
  decreasing_by all_goals (simp [List.length_cons] <;> omega)

/-- The code points produced by replace-mode UTF-8 decoding. -/
def utf8DecodeReplace (bs : List Nat) : List Nat :=
  (utf8DecodeReplaceA bs).1

/-- Embeds `one_time_pad_encrypt(message, key_bits)` (lines 41-48): encode the
message as UTF-8, pack the key bits to bytes, raise
`ValueError("Not enough key bits to encrypt the message.")` when the packed
key is shorter than the message bytes, otherwise XOR the message bytes with
the key-byte prefix of the same length. -/
def one_time_pad_encrypt (message : String) (key_bits : List Nat) :
    Except String (List Nat) :=
  let msg_bytes := utf8Encode message
  let key_bytes := bits_to_bytes key_bits
  if key_bytes.length < msg_bytes.length then
    .error "Not enough key bits to encrypt the message."
  else
    .ok (xor_bytes msg_bytes (key_bytes.take msg_bytes.length))

/-- Embeds `one_time_pad_decrypt(encrypted, key_bits)` (lines 50-55): pack the
key bits, take the key-byte prefix of the ciphertext's length (`zip` then
truncates further if the key is shorter), XOR, and decode the result as UTF-8
with `errors='replace'`.  Total: no error path exists.  The returned value is
the decoded string as its list of code points. -/
def one_time_pad_decrypt (encrypted : List Nat) (key_bits : List Nat) :
    List Nat :=
  let key_bytes := bits_to_bytes key_bits
  let pad := key_bytes.take encrypted.length
  utf8DecodeReplace (xor_bytes encrypted pad)

/-- The `results` dictionary of `run_e91_protocol` (lines 136-142), restricted
to the four parallel lists the analysis functions read: per-pair basis choices
and measurement outcomes for Alice and Bob.  Index `i` is one entangled pair. -/
structure Results where
  alice_bases : List Nat
  bob_bases : List Nat
  alice_results : List Nat
  bob_results : List Nat

/-- `1 if results['alice_results'][i] == 0 else -1` (line 114). -/
def aVal (r : Results) (i : Nat) : Int :=
  if r.alice_results.getD i 0 = 0 then 1 else -1

/-- `1 if results['bob_results'][i] == 0 else -1` (line 115). -/
def bVal (r : Results) (i : Nat) : Int :=
  if r.bob_results.getD i 0 = 0 then 1 else -1

/-- The indices `i in range(len(results['alice_bases']))` whose record falls in
the `(a, b)` basis-pair partition (the loop of lines 109-118 accumulates
`correlations[(a_base, b_base)]` and `counts[(a_base, b_base)]` exactly over
these indices, in order). -/
def partitionIdx (r : Results) (a b : Nat) : List Nat :=
  (List.range r.alice_bases.length).filter fun i =>
    r.alice_bases.getD i 0 = a ∧ r.bob_bases.getD i 0 = b

/-- `counts[(a, b)]` after the loop of lines 109-118: the number of records in
the `(a, b)` partition. -/
def partitionCount (r : Results) (a b : Nat) : Nat :=
  (partitionIdx r a b).length

/-- `correlations[(a, b)]` after the accumulation loop, before averaging: the
sum of `a_val * b_val` over the `(a, b)` partition (line 117). -/
def corrSum (r : Results) (a b : Nat) : Int :=
  ((partitionIdx r a b).map fun i => aVal r i * bVal r i).sum

/-- `correlations[(a, b)]` after the averaging loop (lines 121-123): divided
by `counts[(a, b)]` when that count is positive, otherwise left at the
accumulated value (which is the empty sum, 0). -/
def correlation (r : Results) (a b : Nat) : ℚ :=
  if 0 < partitionCount r a b then
    (corrSum r a b : ℚ) / (partitionCount r a b : ℚ)
  else
    (corrSum r a b : ℚ)

/-- The CHSH parameter `S` of `calculate_CHSH_parameter` (lines 128-129):
`abs(correlations[(0,0)] - correlations[(0,2)] + correlations[(2,0)] +
correlations[(2,2)])`, i.e. the four designated basis pairs a1/b1, a1/b3,
a3/b1, a3/b3. -/
def S_parameter (r : Results) : ℚ :=
  |correlation r 0 0 - correlation r 0 2 + correlation r 2 0 +
    correlation r 2 2|

/-- Embeds `generate_secure_key(results)` (lines 242-257): loop over all pair
indices in order; when `(alice_bases[i], bob_bases[i])` is `(1, 0)` or
`(2, 1)` append `alice_results[i]` to Alice's key and `1 - bob_results[i]`
(Bob inverts his result, singlet convention) to Bob's key. -/
def generate_secure_key (r : Results) : List Nat × List Nat :=
  (List.range r.alice_bases.length).foldl
    (fun keys i =>
      if (r.alice_bases.getD i 0 = 1 ∧ r.bob_bases.getD i 0 = 0) ∨
          (r.alice_bases.getD i 0 = 2 ∧ r.bob_bases.getD i 0 = 1) then
        (keys.1 ++ [r.alice_results.getD i 0],
         keys.2 ++ [1 - r.bob_results.getD i 0])
      else keys)
    ([], [])

/-- The key-generation predicate of `generate_secure_key` (lines 251-252):
`(alice basis, bob basis) ∈ {(1, 0), (2, 1)}` at index `i`. -/
def isKeyIdx (r : Results) (i : Nat) : Prop :=
  (r.alice_bases.getD i 0 = 1 ∧ r.bob_bases.getD i 0 = 0) ∨
    (r.alice_bases.getD i 0 = 2 ∧ r.bob_bases.getD i 0 = 1)

instance (r : Results) (i : Nat) : Decidable (isKeyIdx r i) := by
  unfold isKeyIdx; infer_instance

/-- Embeds the QBER computation of the main block (lines 296-301):
`if alice_key and bob_key:` count positions where the zipped keys differ and
divide by `len(alice_key)`; otherwise `qber = None`. -/
def computeQBER (alice_key bob_key : List Nat) : Option ℚ :=
  if alice_key ≠ [] ∧ bob_key ≠ [] then
    let errors := ((alice_key.zip bob_key).filter fun p => p.1 ≠ p.2).length
    some (if 0 < alice_key.length then
      (errors : ℚ) / (alice_key.length : ℚ) else 0)
  else
    none

/-- A concrete four-record run log: one record in each of the four CHSH
partitions, with agreeing outcomes at (0,0), (2,0), (2,2) and disagreeing
outcomes at (0,2), so that E(0,0) = E(2,0) = E(2,2) = 1 and E(0,2) = -1. -/
def chshRun : Results :=
  ⟨[0, 2, 2, 0], [0, 0, 2, 2], [0, 0, 1, 0], [0, 0, 1, 1]⟩

/-! ### Lemmas about bit packing -/

lemma length_bits_to_bytes (bits : List Nat) :
    (bits_to_bytes bits).length = bits.length / 8 := by
  simp only [bits_to_bytes, List.length_map, List.length_range]
  omega

lemma bits_to_bytes_cons8 (bs rest : List Nat) (h : bs.length = 8) :
    bits_to_bytes (bs ++ rest) = byteFold bs :: bits_to_bytes rest := by
  simp only [bits_to_bytes]
  have hlen : (bs ++ rest).length = 8 + rest.length := by
    simp [h]
  have hn : ((bs ++ rest).length - (bs ++ rest).length % 8) / 8
      = (rest.length - rest.length % 8) / 8 + 1 := by
    rw [hlen]; omega
  rw [hn, List.range_succ_eq_map, List.map_cons, List.map_map]
  congr 1
  · rw [Nat.mul_zero, List.drop_zero, List.take_left' h]
  · apply List.map_congr_left
    intro j hj
    simp only [Function.comp_apply]
    congr 2
    have : 8 * Nat.succ j = 8 + 8 * j := by omega
    rw [this, ← List.drop_drop, List.drop_left' h]

lemma bits_to_bytes_take (bits : List Nat) :
    bits_to_bytes bits = bits_to_bytes (bits.take (8 * (bits.length / 8))) := by
  simp only [bits_to_bytes]
  have hlen : (bits.take (8 * (bits.length / 8))).length = 8 * (bits.length / 8) := by
    rw [List.length_take]; omega
  rw [hlen]
  have h1 : (bits.length - bits.length % 8) / 8 = bits.length / 8 := by omega
  have h2 : (8 * (bits.length / 8) - 8 * (bits.length / 8) % 8) / 8
      = bits.length / 8 := by omega
  rw [h1, h2]
  apply List.map_congr_left
  intro j hj
  rw [List.mem_range] at hj
  congr 1
  rw [List.drop_take, List.take_take]
  congr 1
  omega

/-! ### Lemmas about byte XOR -/

lemma xor_bytes_eq_zipWith (d p : List Nat) :
    xor_bytes d p = List.zipWith (fun a b => a ^^^ b) d p := by
  induction d generalizing p with
  | nil => simp [xor_bytes]
  | cons a as ih =>
    cases p with
    | nil => simp [xor_bytes]
    | cons b bs =>
      simp only [xor_bytes, List.zip_cons_cons, List.map_cons,
        List.zipWith_cons_cons] at ih ⊢
      exact congrArg _ (ih bs)

lemma length_xor_bytes (d p : List Nat) :
    (xor_bytes d p).length = min d.length p.length := by
  rw [xor_bytes_eq_zipWith, List.length_zipWith]

lemma xor_bytes_cancel (m p : List Nat) (h : m.length ≤ p.length) :
    xor_bytes (xor_bytes m p) p = m := by
  induction m generalizing p with
  | nil => simp [xor_bytes]
  | cons a as ih =>
    cases p with
    | nil => simp at h
    | cons b bs =>
      rw [List.length_cons, List.length_cons, Nat.add_le_add_iff_right] at h
      simp only [xor_bytes_eq_zipWith, List.zipWith_cons_cons] at ih ⊢
      rw [Nat.xor_assoc, Nat.xor_self, Nat.xor_zero]
      exact congrArg _ (ih bs h)

/-! ### Lemmas about UTF-8 encoding and replace-mode decoding -/

lemma utf8DecodeReplaceA_one (v : Nat) (rest : List Nat) (h : v < 0x80) :
    utf8DecodeReplaceA (v :: rest) =
      (v :: (utf8DecodeReplaceA rest).1, (utf8DecodeReplaceA rest).2) := by
  rw [utf8DecodeReplaceA.eq_def]
  simp only [if_pos h]

lemma utf8DecodeReplaceA_two (v : Nat) (rest : List Nat)
    (h1 : 0x80 ≤ v) (h2 : v < 0x800) :
    utf8DecodeReplaceA ((0xC0 + v / 64) :: (0x80 + v % 64) :: rest) =
      (v :: (utf8DecodeReplaceA rest).1, (utf8DecodeReplaceA rest).2) := by
  have hb0 : ¬ (0xC0 + v / 64 < 0x80) := by omega
  have hb0' : 0xC2 ≤ 0xC0 + v / 64 ∧ 0xC0 + v / 64 ≤ 0xDF := by omega
  have hb1 : 0x80 ≤ 0x80 + v % 64 ∧ 0x80 + v % 64 ≤ 0xBF := by omega
  have hval : (0xC0 + v / 64 - 0xC0) * 64 + (0x80 + v % 64 - 0x80) = v := by omega
  rw [utf8DecodeReplaceA.eq_def]
  simp only [if_neg hb0, if_pos hb0', if_pos hb1, hval]

lemma utf8DecodeReplaceA_three (v : Nat) (rest : List Nat)
    (h1 : 0x800 ≤ v) (h2 : v < 0x10000) (h3 : ¬ (0xD800 ≤ v ∧ v < 0xE000)) :
    utf8DecodeReplaceA
        ((0xE0 + v / 4096) :: (0x80 + v / 64 % 64) :: (0x80 + v % 64) :: rest) =
      (v :: (utf8DecodeReplaceA rest).1, (utf8DecodeReplaceA rest).2) := by
  have hb0 : ¬ (0xE0 + v / 4096 < 0x80) := by omega
  have hb0' : ¬ (0xC2 ≤ 0xE0 + v / 4096 ∧ 0xE0 + v / 4096 ≤ 0xDF) := by omega
  have hb0'' : 0xE0 ≤ 0xE0 + v / 4096 ∧ 0xE0 + v / 4096 ≤ 0xEF := by omega
  have hb1 : (0x80 ≤ 0x80 + v / 64 % 64 ∧ 0x80 + v / 64 % 64 ≤ 0xBF) ∧
      (0xE0 + v / 4096 = 0xE0 → 0xA0 ≤ 0x80 + v / 64 % 64) ∧
      (0xE0 + v / 4096 = 0xED → 0x80 + v / 64 % 64 ≤ 0x9F) := by
    refine ⟨by omega, fun he => ?_, fun he => ?_⟩ <;> omega
  have hb2 : 0x80 ≤ 0x80 + v % 64 ∧ 0x80 + v % 64 ≤ 0xBF := by omega
  have hval : (0xE0 + v / 4096 - 0xE0) * 4096 + (0x80 + v / 64 % 64 - 0x80) * 64 +
      (0x80 + v % 64 - 0x80) = v := by omega
  rw [utf8DecodeReplaceA.eq_def]
  simp only [if_neg hb0, if_neg hb0', if_pos hb0'', if_pos hb1, if_pos hb2, hval]

lemma utf8DecodeReplaceA_four (v : Nat) (rest : List Nat)
    (h1 : 0x10000 ≤ v) (h2 : v < 0x110000) :
    utf8DecodeReplaceA ((0xF0 + v / 262144) :: (0x80 + v / 4096 % 64) ::
        (0x80 + v / 64 % 64) :: (0x80 + v % 64) :: rest) =
      (v :: (utf8DecodeReplaceA rest).1, (utf8DecodeReplaceA rest).2) := by
  have hb0 : ¬ (0xF0 + v / 262144 < 0x80) := by omega
  have hb0' : ¬ (0xC2 ≤ 0xF0 + v / 262144 ∧ 0xF0 + v / 262144 ≤ 0xDF) := by omega
  have hb0'' : ¬ (0xE0 ≤ 0xF0 + v / 262144 ∧ 0xF0 + v / 262144 ≤ 0xEF) := by omega
  have hb0''' : 0xF0 ≤ 0xF0 + v / 262144 ∧ 0xF0 + v / 262144 ≤ 0xF4 := by omega
  have hb1 : (0x80 ≤ 0x80 + v / 4096 % 64 ∧ 0x80 + v / 4096 % 64 ≤ 0xBF) ∧
      (0xF0 + v / 262144 = 0xF0 → 0x90 ≤ 0x80 + v / 4096 % 64) ∧
      (0xF0 + v / 262144 = 0xF4 → 0x80 + v / 4096 % 64 ≤ 0x8F) := by
    refine ⟨by omega, fun he => ?_, fun he => ?_⟩ <;> omega
  have hb2 : 0x80 ≤ 0x80 + v / 64 % 64 ∧ 0x80 + v / 64 % 64 ≤ 0xBF := by omega
  have hb3 : 0x80 ≤ 0x80 + v % 64 ∧ 0x80 + v % 64 ≤ 0xBF := by omega
  have hval : (0xF0 + v / 262144 - 0xF0) * 262144 + (0x80 + v / 4096 % 64 - 0x80) * 4096 +
      (0x80 + v / 64 % 64 - 0x80) * 64 + (0x80 + v % 64 - 0x80) = v := by omega
  rw [utf8DecodeReplaceA.eq_def]
  simp only [if_neg hb0, if_neg hb0', if_neg hb0'', if_pos hb0''', if_pos hb1,
    if_pos hb2, if_pos hb3, hval]

/-- Decoding the UTF-8 encoding of a valid Unicode scalar value prepended to
any byte list yields that scalar followed by the decoding of the remainder,
with no error. -/
lemma utf8DecodeReplaceA_encodeChar (v : Nat) (rest : List Nat)
    (hv : v < 0xD800 ∨ (0xDFFF < v ∧ v < 0x110000)) :
    utf8DecodeReplaceA (utf8EncodeChar v ++ rest) =
      (v :: (utf8DecodeReplaceA rest).1, (utf8DecodeReplaceA rest).2) := by
  unfold utf8EncodeChar
  by_cases c1 : v < 0x80
  · rw [if_pos c1]
    simpa using utf8DecodeReplaceA_one v rest c1
  · rw [if_neg c1]
    by_cases c2 : v < 0x800
    · rw [if_pos c2]
      simpa using utf8DecodeReplaceA_two v rest (by omega) c2
    · rw [if_neg c2]
      by_cases c3 : v < 0x10000
      · rw [if_pos c3]
        simpa using utf8DecodeReplaceA_three v rest (by omega) c3 (by omega)
      · rw [if_neg c3]
        simpa using utf8DecodeReplaceA_four v rest (by omega) (by omega)

/-- Valid UTF-8 (the encoding of any Lean string) decodes back to the
string's code points, with the error flag clear. -/
lemma utf8DecodeReplaceA_utf8Encode (s : String) :
    utf8DecodeReplaceA (utf8Encode s) = (s.data.map Char.toNat, false) := by
  show utf8DecodeReplaceA ((s.data.map fun c => utf8EncodeChar c.toNat).flatten) = _
  induction s.data with
  | nil => simp [utf8DecodeReplaceA]
  | cons c cs ih =>
    have hv : c.toNat < 0xD800 ∨ (0xDFFF < c.toNat ∧ c.toNat < 0x110000) := by
      have := c.valid
      simp only [UInt32.isValidChar, Nat.isValidChar] at this
      exact this
    simp only [List.map_cons, List.flatten_cons]
    rw [utf8DecodeReplaceA_encodeChar c.toNat _ hv, ih]

/-- Whenever the replace-mode decoder meets a malformed sequence (error flag
set), the replacement character U+FFFD appears in its output. -/
lemma mem_utf8DecodeReplaceA_of_err (bs : List Nat)
    (h : (utf8DecodeReplaceA bs).2 = true) :
    0xFFFD ∈ (utf8DecodeReplaceA bs).1 := by
  induction bs using utf8DecodeReplaceA.induct
  case case1 => simp [utf8DecodeReplaceA] at h
  case case2 b0 rest h1 ih =>
    rw [utf8DecodeReplaceA_one b0 rest h1] at h ⊢
    exact List.mem_cons_of_mem _ (ih h)
  case case3 b0 h1 h2 b1 rest h3 ih =>
    have hstep : utf8DecodeReplaceA (b0 :: b1 :: rest) =
        (((b0 - 0xC0) * 64 + (b1 - 0x80)) :: (utf8DecodeReplaceA rest).1,
          (utf8DecodeReplaceA rest).2) := by
      rw [utf8DecodeReplaceA.eq_def]
      simp only [if_neg h1, if_pos h2, if_pos h3]
    rw [hstep] at h ⊢
    exact List.mem_cons_of_mem _ (ih h)
  case case4 b0 h1 h2 b1 rest h3 ih =>
    have hstep : utf8DecodeReplaceA (b0 :: b1 :: rest) =
        (0xFFFD :: (utf8DecodeReplaceA (b1 :: rest)).1, true) := by
      rw [utf8DecodeReplaceA.eq_def]
      simp only [if_neg h1, if_pos h2, if_neg h3]
    rw [hstep]
    exact List.mem_cons_self _ _
  case case5 b0 h1 h2 =>
    have hstep : utf8DecodeReplaceA [b0] = ([0xFFFD], true) := by
      rw [utf8DecodeReplaceA.eq_def]
      simp only [if_neg h1, if_pos h2]
    rw [hstep]
    exact List.mem_cons_self _ _
  case case6 b0 h1 h2 h3 b1 h4 b2 rest h5 ih =>
    have hstep : utf8DecodeReplaceA (b0 :: b1 :: b2 :: rest) =
        (((b0 - 0xE0) * 4096 + (b1 - 0x80) * 64 + (b2 - 0x80)) ::
          (utf8DecodeReplaceA rest).1, (utf8DecodeReplaceA rest).2) := by
      rw [utf8DecodeReplaceA.eq_def]
      simp only [if_neg h1, if_neg h2, if_pos h3, if_pos h4, if_pos h5]
    rw [hstep] at h ⊢
    exact List.mem_cons_of_mem _ (ih h)
  case case7 b0 h1 h2 h3 b1 h4 b2 rest h5 ih =>
    have hstep : utf8DecodeReplaceA (b0 :: b1 :: b2 :: rest) =
        (0xFFFD :: (utf8DecodeReplaceA (b2 :: rest)).1, true) := by
      rw [utf8DecodeReplaceA.eq_def]
      simp only [if_neg h1, if_neg h2, if_pos h3, if_pos h4, if_neg h5]
    rw [hstep]
    exact List.mem_cons_self _ _
  case case8 b0 h1 h2 h3 b1 h4 =>
    have hstep : utf8DecodeReplaceA [b0, b1] = ([0xFFFD], true) := by
      rw [utf8DecodeReplaceA.eq_def]
      simp only [if_neg h1, if_neg h2, if_pos h3, if_pos h4]
    rw [hstep]
    exact List.mem_cons_self _ _
  case case9 b0 h1 h2 h3 b1 rest h4 ih =>
    have hstep : utf8DecodeReplaceA (b0 :: b1 :: rest) =
        (0xFFFD :: (utf8DecodeReplaceA (b1 :: rest)).1, true) := by
      rw [utf8DecodeReplaceA.eq_def]
      simp only [if_neg h1, if_neg h2, if_pos h3, if_neg h4]
    rw [hstep]
    exact List.mem_cons_self _ _
  case case10 b0 h1 h2 h3 =>
    have hstep : utf8DecodeReplaceA [b0] = ([0xFFFD], true) := by
      rw [utf8DecodeReplaceA.eq_def]
      simp only [if_neg h1, if_neg h2, if_pos h3]
    rw [hstep]
    exact List.mem_cons_self _ _
  case case11 b0 h1 h2 h3 h4 b1 h5 b2 h6 b3 rest h7 ih =>
    have hstep : utf8DecodeReplaceA (b0 :: b1 :: b2 :: b3 :: rest) =
        (((b0 - 0xF0) * 262144 + (b1 - 0x80) * 4096 + (b2 - 0x80) * 64 +
            (b3 - 0x80)) :: (utf8DecodeReplaceA rest).1,
          (utf8DecodeReplaceA rest).2) := by
      rw [utf8DecodeReplaceA.eq_def]
      simp only [if_neg h1, if_neg h2, if_neg h3, if_pos h4, if_pos h5,
        if_pos h6, if_pos h7]
    rw [hstep] at h ⊢
    exact List.mem_cons_of_mem _ (ih h)
  case case12 b0 h1 h2 h3 h4 b1 h5 b2 h6 b3 rest h7 ih =>
    have hstep : utf8DecodeReplaceA (b0 :: b1 :: b2 :: b3 :: rest) =
        (0xFFFD :: (utf8DecodeReplaceA (b3 :: rest)).1, true) := by
      rw [utf8DecodeReplaceA.eq_def]
      simp only [if_neg h1, if_neg h2, if_neg h3, if_pos h4, if_pos h5,
        if_pos h6, if_neg h7]
    rw [hstep]
    exact List.mem_cons_self _ _
  case case13 b0 h1 h2 h3 h4 b1 h5 b2 h6 =>
    have hstep : utf8DecodeReplaceA [b0, b1, b2] = ([0xFFFD], true) := by
      rw [utf8DecodeReplaceA.eq_def]
      simp only [if_neg h1, if_neg h2, if_neg h3, if_pos h4, if_pos h5, if_pos h6]
    rw [hstep]
    exact List.mem_cons_self _ _
  case case14 b0 h1 h2 h3 h4 b1 h5 b2 rest h6 ih =>
    have hstep : utf8DecodeReplaceA (b0 :: b1 :: b2 :: rest) =
        (0xFFFD :: (utf8DecodeReplaceA (b2 :: rest)).1, true) := by
      rw [utf8DecodeReplaceA.eq_def]
      simp only [if_neg h1, if_neg h2, if_neg h3, if_pos h4, if_pos h5, if_neg h6]
    rw [hstep]
    exact List.mem_cons_self _ _
  case case15 b0 h1 h2 h3 h4 b1 h5 =>
    have hstep : utf8DecodeReplaceA [b0, b1] = ([0xFFFD], true) := by
      rw [utf8DecodeReplaceA.eq_def]
      simp only [if_neg h1, if_neg h2, if_neg h3, if_pos h4, if_pos h5]
    rw [hstep]
    exact List.mem_cons_self _ _
  case case16 b0 h1 h2 h3 h4 b1 rest h5 ih =>
    have hstep : utf8DecodeReplaceA (b0 :: b1 :: rest) =
        (0xFFFD :: (utf8DecodeReplaceA (b1 :: rest)).1, true) := by
      rw [utf8DecodeReplaceA.eq_def]
      simp only [if_neg h1, if_neg h2, if_neg h3, if_pos h4, if_neg h5]
    rw [hstep]
    exact List.mem_cons_self _ _
  case case17 b0 h1 h2 h3 h4 =>
    have hstep : utf8DecodeReplaceA [b0] = ([0xFFFD], true) := by
      rw [utf8DecodeReplaceA.eq_def]
      simp only [if_neg h1, if_neg h2, if_neg h3, if_pos h4]
    rw [hstep]
    exact List.mem_cons_self _ _
  case case18 b0 rest h1 h2 h3 h4 ih =>
    have hstep : utf8DecodeReplaceA (b0 :: rest) =
        (0xFFFD :: (utf8DecodeReplaceA rest).1, true) := by
      rw [utf8DecodeReplaceA.eq_def]
      simp only [if_neg h1, if_neg h2, if_neg h3, if_neg h4]
    rw [hstep]
    exact List.mem_cons_self _ _

/-! ### Lemmas about correlations and the CHSH statistic -/

lemma abs_aVal_mul_bVal (r : Results) (i : Nat) : |aVal r i * bVal r i| = 1 := by
  unfold aVal bVal
  by_cases ha : r.alice_results.getD i 0 = 0 <;>
    by_cases hb : r.bob_results.getD i 0 = 0
  · rw [if_pos ha, if_pos hb]; decide
  · rw [if_pos ha, if_neg hb]; decide
  · rw [if_neg ha, if_pos hb]; decide
  · rw [if_neg ha, if_neg hb]; decide

lemma abs_sum_map_le (l : List Nat) (f : Nat → Int) (h : ∀ i ∈ l, |f i| ≤ 1) :
    |(l.map f).sum| ≤ (l.length : Int) := by
  induction l with
  | nil => simp
  | cons hd tl ih =>
    rw [List.map_cons, List.sum_cons, List.length_cons]
    calc |f hd + (tl.map f).sum| ≤ |f hd| + |(tl.map f).sum| := abs_add _ _
      _ ≤ 1 + (tl.length : Int) := by
          have h1 := h hd (List.mem_cons_self hd tl)
          have h2 := ih fun i hi => h i (List.mem_cons_of_mem hd hi)
          omega
      _ = ((tl.length + 1 : Nat) : Int) := by push_cast; ring

lemma abs_corrSum_le (r : Results) (a b : Nat) :
    |corrSum r a b| ≤ (partitionCount r a b : Int) := by
  unfold corrSum partitionCount
  exact abs_sum_map_le _ _ fun i _ => le_of_eq (abs_aVal_mul_bVal r i)

lemma corrSum_eq_zero (r : Results) (a b : Nat) (h : partitionCount r a b = 0) :
    corrSum r a b = 0 := by
  unfold corrSum
  unfold partitionCount at h
  rw [List.length_eq_zero] at h
  rw [h]
  rfl

lemma correlation_mem_Icc (r : Results) (a b : Nat) :
    -1 ≤ correlation r a b ∧ correlation r a b ≤ 1 := by
  unfold correlation
  by_cases hc : 0 < partitionCount r a b
  · rw [if_pos hc]
    have hs := abs_corrSum_le r a b
    have hcq : (0 : ℚ) < (partitionCount r a b : ℚ) := by exact_mod_cast hc
    have habs : |(corrSum r a b : ℚ) / (partitionCount r a b : ℚ)| ≤ 1 := by
      rw [abs_div, abs_of_pos hcq, div_le_one hcq]
      rw [← Int.cast_abs]
      exact_mod_cast hs
    exact abs_le.mp habs
  · rw [if_neg hc]
    have h0 : corrSum r a b = 0 := corrSum_eq_zero r a b (by omega)
    rw [h0]
    norm_num

/-! ### Lemmas about key sifting -/

lemma sift_foldl (P : Nat → Prop) [DecidablePred P] (f g : Nat → Nat)
    (l : List Nat) (acc : List Nat × List Nat) :
    l.foldl (fun keys i =>
        if P i then (keys.1 ++ [f i], keys.2 ++ [g i]) else keys) acc =
      (acc.1 ++ (l.filter fun i => decide (P i)).map f,
       acc.2 ++ (l.filter fun i => decide (P i)).map g) := by
  induction l generalizing acc with
  | nil => simp
  | cons hd tl ih =>
    rw [List.foldl_cons, List.filter_cons]
    by_cases hp : P hd
    · rw [if_pos hp, ih]
      simp [hp]
    · rw [if_neg hp, ih]
      simp [hp]

lemma generate_secure_key_eq (r : Results) :
    generate_secure_key r =
      (((List.range r.alice_bases.length).filter fun i =>
          decide (isKeyIdx r i)).map (fun i => r.alice_results.getD i 0),
       ((List.range r.alice_bases.length).filter fun i =>
          decide (isKeyIdx r i)).map (fun i => 1 - r.bob_results.getD i 0)) := by
  unfold generate_secure_key
  have h := sift_foldl (fun i => isKeyIdx r i) (fun i => r.alice_results.getD i 0)
    (fun i => 1 - r.bob_results.getD i 0) (List.range r.alice_bases.length) ([], [])
  exact h

/-! ### Claim theorems -/

/-- C5: `bits_to_bytes` groups bits into 8-bit big-endian bytes in arrival
order, silently dropping trailing bits beyond a multiple of 8: only the first
`8 * (len / 8)` bits matter; each full 8-bit group becomes one byte with
big-endian weights; the 10-bit input `[1,0,0,0,0,0,0,1,1,1]` yields exactly
the single byte `0x81`. -/
theorem bits_to_bytes_spec :
    (∀ bits : List Nat,
        bits_to_bytes bits = bits_to_bytes (bits.take (8 * (bits.length / 8)))) ∧
    (∀ bs rest : List Nat, bs.length = 8 →
        bits_to_bytes (bs ++ rest) = byteFold bs :: bits_to_bytes rest) ∧
    (∀ b0 b1 b2 b3 b4 b5 b6 b7 : Nat,
        byteFold [b0, b1, b2, b3, b4, b5, b6, b7] =
          128 * b0 + 64 * b1 + 32 * b2 + 16 * b3 + 8 * b4 + 4 * b5 +
            2 * b6 + b7) ∧
    bits_to_bytes [1, 0, 0, 0, 0, 0, 0, 1, 1, 1] = [0x81] := by
  refine ⟨bits_to_bytes_take, bits_to_bytes_cons8, ?_, by decide⟩
  intro b0 b1 b2 b3 b4 b5 b6 b7
  simp only [byteFold, List.foldl_cons, List.foldl_nil]
  ring

/-- C5 witness: the second conjunct of `bits_to_bytes_spec` applied to the
8-bit group `[1,0,0,0,0,0,0,1]` followed by the trailing bits `[1,1]`. -/
theorem bits_to_bytes_spec_witness :
    bits_to_bytes ([1, 0, 0, 0, 0, 0, 0, 1] ++ [1, 1]) =
      byteFold [1, 0, 0, 0, 0, 0, 0, 1] :: bits_to_bytes [1, 1] :=
  bits_to_bytes_spec.2.1 [1, 0, 0, 0, 0, 0, 0, 1] [1, 1] (by decide)

/-- C6: `one_time_pad_encrypt` raises the insufficient-key `ValueError` when
the packed key bytes are fewer than the message's UTF-8 bytes — equivalently
when the key has fewer than `8 * len(msg_bytes)` bits — and otherwise returns
the byte-wise XOR of the message bytes with the first `len(msg_bytes)` key
bytes. -/
theorem one_time_pad_encrypt_spec (m : String) (k : List Nat) :
    (k.length < 8 * (utf8Encode m).length →
        one_time_pad_encrypt m k =
          Except.error "Not enough key bits to encrypt the message.") ∧
    (8 * (utf8Encode m).length ≤ k.length →
        one_time_pad_encrypt m k =
          Except.ok (List.zipWith (fun a b => a ^^^ b) (utf8Encode m)
            ((bits_to_bytes k).take (utf8Encode m).length))) := by
  constructor
  · intro hk
    unfold one_time_pad_encrypt
    rw [if_pos]
    rw [length_bits_to_bytes]
    omega
  · intro hk
    unfold one_time_pad_encrypt
    rw [if_neg (by rw [length_bits_to_bytes]; omega)]
    rw [xor_bytes_eq_zipWith]

/-- C6 witness: a 3-bit key is insufficient for the 2-byte message "HI" and
the error is raised; a 16-bit key is sufficient and XOR encryption runs. -/
theorem one_time_pad_encrypt_spec_witness :
    one_time_pad_encrypt "HI" [1, 1, 1] =
        Except.error "Not enough key bits to encrypt the message." ∧
    one_time_pad_encrypt "HI" (List.replicate 16 1) =
        Except.ok (List.zipWith (fun a b => a ^^^ b) (utf8Encode "HI")
          ((bits_to_bytes (List.replicate 16 1)).take (utf8Encode "HI").length)) :=
  ⟨(one_time_pad_encrypt_spec "HI" [1, 1, 1]).1 (by decide),
   (one_time_pad_encrypt_spec "HI" (List.replicate 16 1)).2 (by decide)⟩

/-- C7: the correlation of an empty basis-pair partition is 0: when no record
of the run log has basis pair `(a, b)`, the averaging loop skips the division
and the accumulated value (the empty sum) is 0 — no exception, no undefined
mean. -/
theorem correlation_empty_partition (r : Results) (a b : Nat)
    (h : partitionCount r a b = 0) : correlation r a b = 0 := by
  unfold correlation
  rw [if_neg (by omega), corrSum_eq_zero r a b h]
  norm_num

/-- C7 witness: a one-record log whose single record has basis pair (0, 0),
so the (1, 1) partition is empty and its correlation is 0. -/
theorem correlation_empty_partition_witness :
    partitionCount ⟨[0], [0], [0], [0]⟩ 1 1 = 0 ∧
      correlation ⟨[0], [0], [0], [0]⟩ 1 1 = 0 :=
  ⟨by decide, correlation_empty_partition _ 1 1 (by decide)⟩

/-- C4 counterexample: the QBER computation does not fail on mismatched key
lengths.  With `alice_key = [0, 1]` and `bob_key = [0]` (lengths 2 and 1) it
silently zips the keys down to the shorter length and returns the value 0
instead of raising a length-mismatch error. -/
theorem computeQBER_no_length_check : computeQBER [0, 1] [0] = some 0 := by
  unfold computeQBER
  rw [if_pos (⟨by decide, by decide⟩ : ([0, 1] : List ℕ) ≠ [] ∧ ([0] : List ℕ) ≠ [])]
  simp only [if_pos (by decide : 0 < ([0, 1] : List ℕ).length)]
  rw [show ((([0, 1] : List ℕ).zip [0]).filter
      fun p => decide (p.1 ≠ p.2)).length = 0 from by decide]
  norm_num

/-- C4 amended: the QBER computation never raises: it returns `none` when
either key is empty, and otherwise the number of differing positions of the
zipped (length-truncated) keys divided by Alice's key length; when the two
keys have equal length the result lies in [0, 1]. -/
theorem computeQBER_spec (ak bk : List Nat) :
    (ak = [] ∨ bk = [] → computeQBER ak bk = none) ∧
    (ak ≠ [] → bk ≠ [] →
        computeQBER ak bk =
          some ((((ak.zip bk).filter fun p => decide (p.1 ≠ p.2)).length : ℚ) /
            (ak.length : ℚ))) ∧
    (ak.length = bk.length → ∀ q : ℚ, computeQBER ak bk = some q →
        0 ≤ q ∧ q ≤ 1) := by
  refine ⟨?_, ?_, ?_⟩
  · intro h
    unfold computeQBER
    rw [if_neg]
    tauto
  · intro h1 h2
    unfold computeQBER
    rw [if_pos ⟨h1, h2⟩]
    simp only [if_pos (List.length_pos.mpr h1)]
  · intro hlen q hq
    by_cases h1 : ak = []
    · have h2 : bk = [] := by
        apply List.length_eq_zero.mp
        rw [← hlen, h1]
        rfl
      rw [h1, h2] at hq
      simp [computeQBER] at hq
    · have h2 : bk ≠ [] := by
        intro hbk
        apply h1
        apply List.length_eq_zero.mp
        rw [hbk] at hlen
        simpa using hlen
      unfold computeQBER at hq
      rw [if_pos ⟨h1, h2⟩] at hq
      simp only [if_pos (List.length_pos.mpr h1)] at hq
      have hq' := Option.some_injective _ hq
      have herr : (((ak.zip bk).filter fun p => decide (p.1 ≠ p.2)).length : ℚ) ≤
          (ak.length : ℚ) := by
        have hle : ((ak.zip bk).filter fun p => decide (p.1 ≠ p.2)).length ≤
            ak.length := by
          calc ((ak.zip bk).filter fun p => decide (p.1 ≠ p.2)).length
              ≤ (ak.zip bk).length := List.length_filter_le _ _
            _ ≤ ak.length := by rw [List.length_zip]; omega
        exact_mod_cast hle
      have hpos : (0 : ℚ) < (ak.length : ℚ) := by
        have := List.length_pos.mpr h1
        exact_mod_cast this
      constructor
      · rw [← hq']
        positivity
      · rw [← hq']
        rw [div_le_one hpos]
        exact herr

/-- C4 witness: `computeQBER` applied through `computeQBER_spec` at an empty
key pair (giving `none`), at the equal-length pair `[0,1]` / `[1,1]` (giving
the differing fraction), and its [0, 1] bound at that same pair. -/
theorem computeQBER_spec_witness :
    computeQBER [] [0] = none ∧
    computeQBER [0, 1] [1, 1] =
      some ((((([0, 1] : List Nat).zip [1, 1]).filter
        fun p => decide (p.1 ≠ p.2)).length : ℚ) /
          ((([0, 1] : List Nat).length : ℚ))) ∧
    (0 ≤ ((((([0, 1] : List Nat).zip [1, 1]).filter
        fun p => decide (p.1 ≠ p.2)).length : ℚ) /
          ((([0, 1] : List Nat).length : ℚ))) ∧
      (((((([0, 1] : List Nat).zip [1, 1]).filter
        fun p => decide (p.1 ≠ p.2)).length : ℚ) /
          ((([0, 1] : List Nat).length : ℚ))) ≤ 1)) :=
  ⟨(computeQBER_spec [] [0]).1 (Or.inl rfl),
   (computeQBER_spec [0, 1] [1, 1]).2.1 (by decide) (by decide),
   (computeQBER_spec [0, 1] [1, 1]).2.2 (by decide) _
     ((computeQBER_spec [0, 1] [1, 1]).2.1 (by decide) (by decide))⟩

/-- C3: sifting keeps exactly the records with basis pair in
`{(1, 0), (2, 1)}`, in original index order; Alice's key gets her raw bit and
Bob's key gets his bit XORed with the fixed singlet correction 1 (the code's
`1 - bit`, equal to `bit XOR 1` for 0/1 bits); both keys have the same
length, the number of matching records. -/
theorem generate_secure_key_spec (r : Results)
    (hbit : ∀ x ∈ r.bob_results, x ≤ 1) :
    (generate_secure_key r).1.length = (generate_secure_key r).2.length ∧
    (generate_secure_key r).1.length =
      ((List.range r.alice_bases.length).filter fun i =>
        decide (isKeyIdx r i)).length ∧
    (generate_secure_key r).1 =
      ((List.range r.alice_bases.length).filter fun i =>
        decide (isKeyIdx r i)).map (fun i => r.alice_results.getD i 0) ∧
    (generate_secure_key r).2 =
      ((List.range r.alice_bases.length).filter fun i =>
        decide (isKeyIdx r i)).map (fun i => (r.bob_results.getD i 0) ^^^ 1) := by
  rw [generate_secure_key_eq]
  refine ⟨by simp, by simp, rfl, ?_⟩
  apply List.map_congr_left
  intro i hi
  have hb : r.bob_results.getD i 0 ≤ 1 := by
    rcases Nat.lt_or_ge i r.bob_results.length with hlt | hge
    · rw [List.getD_eq_getElem _ _ hlt]
      exact hbit _ (List.getElem_mem hlt)
    · rw [List.getD_eq_default _ _ hge]
      omega
  have : r.bob_results.getD i 0 = 0 ∨ r.bob_results.getD i 0 = 1 := by omega
  rcases this with h0 | h0 <;> rw [h0] <;> decide

/-- C3 witness: `generate_secure_key_spec` applied to a concrete four-record
log with two matching records at (1,0) and one at (2,1). -/
theorem generate_secure_key_spec_witness :
    (generate_secure_key
        ⟨[1, 2, 0, 1], [0, 1, 1, 0], [1, 0, 1, 1], [0, 0, 1, 1]⟩).1.length =
      (generate_secure_key
        ⟨[1, 2, 0, 1], [0, 1, 1, 0], [1, 0, 1, 1], [0, 0, 1, 1]⟩).2.length :=
  (generate_secure_key_spec _ (by decide)).1

/-- C8: every per-basis-pair correlation lies in [-1, 1] and the CHSH
statistic satisfies |S| ≤ 4, for every run log. -/
theorem correlation_CHSH_bounds (r : Results) :
    (∀ a b : Nat, -1 ≤ correlation r a b ∧ correlation r a b ≤ 1) ∧
    |S_parameter r| ≤ 4 := by
  refine ⟨fun a b => correlation_mem_Icc r a b, ?_⟩
  unfold S_parameter
  rw [abs_abs, abs_le]
  have h00 := correlation_mem_Icc r 0 0
  have h02 := correlation_mem_Icc r 0 2
  have h20 := correlation_mem_Icc r 2 0
  have h22 := correlation_mem_Icc r 2 2
  constructor <;> linarith [h00.1, h00.2, h02.1, h02.2, h20.1, h20.2,
    h22.1, h22.2]

/-- C2: the CHSH statistic combines the four designated basis-pair
correlations E1 = E(0,0), E2 = E(2,0), E3 = E(2,2), E4 = E(0,2) with the
fixed sign pattern {+,+,+,-}: S = |E1 + E2 + E3 - E4| (the code's
`|E(0,0) - E(0,2) + E(2,0) + E(2,2)|`); on the concrete log `chshRun` with
E1 = E2 = E3 = 1 and E4 = -1 the computed S equals 4. -/
theorem chsh_sign_pattern :
    (∀ r : Results, S_parameter r =
      |correlation r 0 0 + correlation r 2 0 + correlation r 2 2 -
        correlation r 0 2|) ∧
    (correlation chshRun 0 0 = 1 ∧ correlation chshRun 2 0 = 1 ∧
      correlation chshRun 2 2 = 1 ∧ correlation chshRun 0 2 = -1 ∧
      S_parameter chshRun = 4) := by
  have heval : ∀ a b : Nat, partitionCount chshRun a b = 1 →
      ∀ s : Int, corrSum chshRun a b = s → correlation chshRun a b = (s : ℚ) := by
    intro a b hc s hs
    unfold correlation
    rw [if_pos (by omega), hc, hs]
    norm_num
  have e00 : correlation chshRun 0 0 = 1 := by
    simpa using heval 0 0 (by decide) 1 (by decide)
  have e20 : correlation chshRun 2 0 = 1 := by
    simpa using heval 2 0 (by decide) 1 (by decide)
  have e22 : correlation chshRun 2 2 = 1 := by
    simpa using heval 2 2 (by decide) 1 (by decide)
  have e02 : correlation chshRun 0 2 = -1 := by
    simpa using heval 0 2 (by decide) (-1) (by decide)
  refine ⟨fun r => ?_, e00, e20, e22, e02, ?_⟩
  · unfold S_parameter
    congr 1
    ring
  · unfold S_parameter
    rw [e00, e02, e20, e22]
    norm_num

/-- Python's `zip` truncation commutes with pre-truncating the first list to
the second list's length. -/
lemma zip_take_eq (enc kb : List Nat) :
    enc.zip (kb.take enc.length) =
      (enc.take kb.length).zip (kb.take (enc.take kb.length).length) := by
  induction enc generalizing kb with
  | nil => simp
  | cons e es ih =>
    cases kb with
    | nil => simp
    | cons b bs =>
      simp only [List.length_cons, List.take_succ_cons, List.zip_cons_cons]
      rw [ih bs]

/-- C10: `one_time_pad_decrypt` never raises an insufficient-key error: it is
total, and when the packed key bytes number fewer than the ciphertext bytes
it decrypts only the key-length prefix of the ciphertext (`zip` truncation),
silently dropping the remainder: decrypting `enc` equals decrypting
`enc.take (key byte count)`, and the XOR output length is the key byte count
whenever the key bytes are not longer than the ciphertext. -/
theorem one_time_pad_decrypt_truncates (enc k : List Nat) :
    one_time_pad_decrypt enc k =
      one_time_pad_decrypt (enc.take (bits_to_bytes k).length) k ∧
    ((bits_to_bytes k).length ≤ enc.length →
      (xor_bytes enc ((bits_to_bytes k).take enc.length)).length =
        (bits_to_bytes k).length) := by
  constructor
  · show utf8DecodeReplace
        (xor_bytes enc ((bits_to_bytes k).take enc.length)) =
      utf8DecodeReplace
        (xor_bytes (enc.take (bits_to_bytes k).length)
          ((bits_to_bytes k).take (enc.take (bits_to_bytes k).length).length))
    unfold xor_bytes
    rw [zip_take_eq]
  · intro h
    rw [length_xor_bytes, List.length_take]
    omega

/-- C10 witness: a 3-byte ciphertext with an 8-bit key (one packed key byte):
decryption only looks at the first ciphertext byte and the XOR output has
length 1. -/
theorem one_time_pad_decrypt_truncates_witness :
    one_time_pad_decrypt [1, 2, 3] (List.replicate 8 0) =
      one_time_pad_decrypt
        ([1, 2, 3].take (bits_to_bytes (List.replicate 8 0)).length)
        (List.replicate 8 0) ∧
    (xor_bytes [1, 2, 3]
        ((bits_to_bytes (List.replicate 8 0)).take
          ([1, 2, 3] : List ℕ).length)).length =
      (bits_to_bytes (List.replicate 8 0)).length :=
  ⟨(one_time_pad_decrypt_truncates [1, 2, 3] (List.replicate 8 0)).1,
   (one_time_pad_decrypt_truncates [1, 2, 3] (List.replicate 8 0)).2 (by decide)⟩

/-- C9 counterexample: decoding failures are NOT surfaced.  For ciphertext
`[0xFF]` and an 8-bit all-zero key the XOR result `[0xFF]` is not valid UTF-8
(the decoder's error flag is set), yet `one_time_pad_decrypt` returns the
string consisting of the replacement character U+FFFD instead of reporting a
failure — the code decodes with `errors='replace'`. -/
theorem one_time_pad_decrypt_replaces :
    (utf8DecodeReplaceA (xor_bytes [0xFF]
        ((bits_to_bytes [0, 0, 0, 0, 0, 0, 0, 0]).take 1))).2 = true ∧
    one_time_pad_decrypt [0xFF] [0, 0, 0, 0, 0, 0, 0, 0] = [0xFFFD] := by
  have hdec : utf8DecodeReplaceA [0xFF] = ([0xFFFD], true) := by
    simp [utf8DecodeReplaceA]
  constructor
  · rw [show xor_bytes [0xFF] ((bits_to_bytes [0, 0, 0, 0, 0, 0, 0, 0]).take 1)
        = [0xFF] from by decide, hdec]
  · show (utf8DecodeReplaceA (xor_bytes [0xFF]
        ((bits_to_bytes [0, 0, 0, 0, 0, 0, 0, 0]).take
          ([0xFF] : List ℕ).length))).1 = [0xFFFD]
    rw [show xor_bytes [0xFF] ((bits_to_bytes [0, 0, 0, 0, 0, 0, 0, 0]).take
        ([0xFF] : List ℕ).length) = [0xFF] from by decide, hdec]

/-- C9 amended: `one_time_pad_decrypt` masks decoding failures rather than
surfacing them: it is total (returns a string for every input), and whenever
the XOR result is not valid UTF-8 (replace-decoder error flag set) the
returned string contains the substituted replacement character U+FFFD. -/
theorem one_time_pad_decrypt_masks_failures (enc k : List Nat)
    (h : (utf8DecodeReplaceA (xor_bytes enc
        ((bits_to_bytes k).take enc.length))).2 = true) :
    0xFFFD ∈ one_time_pad_decrypt enc k :=
  mem_utf8DecodeReplaceA_of_err _ h

/-- C9 witness: `one_time_pad_decrypt_masks_failures` applied to the
malformed single-byte ciphertext `[0xFF]` under an all-zero 8-bit key. -/
theorem one_time_pad_decrypt_masks_failures_witness :
    (utf8DecodeReplaceA (xor_bytes [0xFF]
        ((bits_to_bytes [0, 0, 0, 0, 0, 0, 0, 0]).take
          ([0xFF] : List ℕ).length))).2 = true ∧
    0xFFFD ∈ one_time_pad_decrypt [0xFF] [0, 0, 0, 0, 0, 0, 0, 0] := by
  have h : (utf8DecodeReplaceA (xor_bytes [0xFF]
      ((bits_to_bytes [0, 0, 0, 0, 0, 0, 0, 0]).take
        ([0xFF] : List ℕ).length))).2 = true := by
    rw [show xor_bytes [0xFF] ((bits_to_bytes [0, 0, 0, 0, 0, 0, 0, 0]).take
        ([0xFF] : List ℕ).length) = [0xFF] from by decide]
    simp [utf8DecodeReplaceA]
  exact ⟨h, one_time_pad_decrypt_masks_failures [0xFF] [0, 0, 0, 0, 0, 0, 0, 0] h⟩

/-- C1: one-time-pad round trip.  For every message `m` and key bit list `k`
with `8 × (UTF-8 byte length of m) ≤ length k`, decrypting the encryption of
`m` under `k` returns exactly `m`: as the list of `m`'s code points, and as
the reconstructed string itself. -/
theorem one_time_pad_round_trip (m : String) (k : List Nat)
    (h : 8 * (utf8Encode m).length ≤ k.length) :
    (one_time_pad_encrypt m k).map (fun enc => one_time_pad_decrypt enc k) =
      Except.ok (m.data.map Char.toNat) ∧
    (one_time_pad_encrypt m k).map (fun enc =>
        String.mk ((one_time_pad_decrypt enc k).map Char.ofNat)) =
      Except.ok m := by
  have hkb : (utf8Encode m).length ≤ (bits_to_bytes k).length := by
    rw [length_bits_to_bytes]; omega
  have henc : one_time_pad_encrypt m k =
      Except.ok (xor_bytes (utf8Encode m)
        ((bits_to_bytes k).take (utf8Encode m).length)) := by
    unfold one_time_pad_encrypt
    rw [if_neg (by omega)]
  have hpadlen : ((bits_to_bytes k).take (utf8Encode m).length).length =
      (utf8Encode m).length := by
    rw [List.length_take]; omega
  have henclen : (xor_bytes (utf8Encode m)
      ((bits_to_bytes k).take (utf8Encode m).length)).length =
      (utf8Encode m).length := by
    rw [length_xor_bytes, hpadlen]; omega
  have hdec : one_time_pad_decrypt (xor_bytes (utf8Encode m)
      ((bits_to_bytes k).take (utf8Encode m).length)) k =
      m.data.map Char.toNat := by
    show utf8DecodeReplace (xor_bytes
        (xor_bytes (utf8Encode m) ((bits_to_bytes k).take (utf8Encode m).length))
        ((bits_to_bytes k).take (xor_bytes (utf8Encode m)
          ((bits_to_bytes k).take (utf8Encode m).length)).length)) =
      m.data.map Char.toNat
    rw [henclen, xor_bytes_cancel _ _ (le_of_eq hpadlen.symm)]
    unfold utf8DecodeReplace
    rw [utf8DecodeReplaceA_utf8Encode]
  constructor
  · rw [henc]
    exact congrArg Except.ok hdec
  · rw [henc]
    refine congrArg Except.ok ?_
    show String.mk ((one_time_pad_decrypt (xor_bytes (utf8Encode m)
        ((bits_to_bytes k).take (utf8Encode m).length)) k).map Char.ofNat) = m
    rw [hdec, List.map_map]
    have hid : m.data.map (Char.ofNat ∘ Char.toNat) = m.data.map id :=
      List.map_congr_left fun c _ => Char.ofNat_toNat c
    rw [hid, List.map_id]

/-- C1 witness: the round trip for the message "HI" under a 16-bit all-ones
key. -/
theorem one_time_pad_round_trip_witness :
    8 * (utf8Encode "HI").length ≤ (List.replicate 16 1).length ∧
    (one_time_pad_encrypt "HI" (List.replicate 16 1)).map (fun enc =>
        String.mk ((one_time_pad_decrypt enc (List.replicate 16 1)).map
          Char.ofNat)) = Except.ok "HI" :=
  ⟨by decide, (one_time_pad_round_trip "HI" (List.replicate 16 1) (by decide)).2⟩

end E91
